import Mathlib

/-!
# Verification of the statistical aggregation engine

This file is a shallow embedding, in Lean 4, of the Empirical-Bayes
(Beta-Binomial) shrinkage statistics pipeline of the repository:

* `src/trio_stats.py` — `compute_trio_scores`, `beta_lcb`;
* `src/export_3v3_win_rates.py` — `compute_matchup_scores`;
* `src/export_pair_stats.py` — `compute_pair_rates`;
* `src/export_win_rates.py` — `compute_win_rates`;
* `src/export_trio_stats.py` — `export_trio_json`.

Modelling conventions:

* Python `float` values are modelled as rationals (`ℚ`).  Every IEEE-754
  double is a rational number, and all claims under study concern the
  algebraic structure of the computation, not rounding of binary floats.
* Python `dict`s (including `defaultdict`s) preserve insertion order; they
  are modelled as association lists (`List (κ × τ)`) with an insert-or-update
  primitive `updWith` that updates in place or appends at the end.
* `scipy.stats.beta.ppf` is a numerical routine external to the repository;
  it is modelled as an explicit function parameter `ppf : ℚ → ℚ → ℚ → ℚ`
  (quantile level, alpha, beta — returning a float, hence a rational).
  Claims about the actual values of the Beta quantile are stated through
  `betaCDFInt`, the closed-form Beta CDF at positive integer parameters.
* Python's stable `list.sort(key=..., reverse=True)` is modelled by the
  stable `List.insertionSort` with the corresponding descending relation;
  the embedding is a pure function, so determinism on identical input is
  by construction.
-/

namespace BrawlStats

/-- A per-group win/game tally, as accumulated by the Python
`defaultdict(lambda: {"wins": 0.0, "games": 0.0})`. -/
structure Tally where
  wins : ℚ
  games : ℚ
deriving DecidableEq

/-- Insert-or-update on an association list (the model of a Python dict
write): the first entry with key `k` is updated through `f ∘ some`, and if
no entry exists a new one is appended with `f none` (insertion order is
preserved, as for Python dicts). -/
def updWith {κ τ : Type} [DecidableEq κ] (f : Option τ → τ) (k : κ) :
    List (κ × τ) → List (κ × τ)
  | [] => [(k, f none)]
  | (k', t) :: rest =>
      if k' = k then (k', f (some t)) :: rest else (k', t) :: updWith f k rest

/-- Key lookup on an association list (the model of a Python dict read). -/
def alookup {κ τ : Type} [DecidableEq κ] (k : κ) : List (κ × τ) → Option τ
  | [] => none
  | (k', t) :: rest => if k' = k then some t else alookup k rest

/-- `tuple(sorted(...))` on Python ints: ascending sort of the identifiers. -/
def sortIds (l : List ℤ) : List ℤ := List.insertionSort (· ≤ ·) l

/-- Canonical (ascending) form of a trio of character identifiers, the model
of `tuple(sorted((int(b1), int(b2), int(b3))))`. -/
def canonTrio (a b c : ℤ) : List ℤ := sortIds [a, b, c]

/-- The floor of a rational number, written through `Int.fdiv` so that it
evaluates by kernel reduction. -/
def ratFloor (q : ℚ) : ℤ := Int.fdiv q.num q.den

/-- Python `round` on a rational value: round half to even. -/
def pyRound (q : ℚ) : ℤ :=
  let f := ratFloor q
  let r := q - (f : ℚ)
  if r < 1 / 2 then f
  else if 1 / 2 < r then f + 1
  else if f % 2 = 0 then f else f + 1

/-- One row of the trio aggregation input (`TrioRow` in `trio_stats.py`):
`(map_id, rank_id, mode_id, brawler_a, brawler_b, brawler_c, wins, losses)`. -/
structure TrioRow where
  map_id : ℤ
  rank_id : ℤ
  mode_id : ℤ
  b1 : ℤ
  b2 : ℤ
  b3 : ℤ
  wins : ℚ
  losses : ℚ
deriving DecidableEq

/-- The per-`(map, rank)` accumulator of trio tallies:
`stats[map_id][rank_key][trio] = {"wins": ..., "games": ...}`. -/
abbrev TrioStats := List (ℤ × List (Option ℤ × List (List ℤ × Tally)))

/-- Add `dw` wins and `dg` games to an (optional) existing tally, the model
of the two `+=` statements on a `defaultdict` entry. -/
def addTally (dw dg : ℚ) : Option Tally → Tally
  | none => ⟨0 + dw, 0 + dg⟩
  | some t => ⟨t.wins + dw, t.games + dg⟩

/-- One iteration of the accumulation loop of `compute_trio_scores`:
canonicalize the trio by ascending sort and add the row's wins and
wins+losses to the `(map_id, rank_key, trio)` bucket. -/
def bumpTrio (group_by_rank : Bool) (acc : TrioStats) (row : TrioRow) :
    TrioStats :=
  let rankKey : Option ℤ := if group_by_rank then some row.rank_id else none
  let trio := canonTrio row.b1 row.b2 row.b3
  updWith (fun mo =>
      updWith (fun ro =>
          updWith (addTally row.wins (row.wins + row.losses)) trio
            (ro.getD []))
        rankKey (mo.getD []))
    row.map_id acc

/-- The accumulation loop of `compute_trio_scores` (lines 148–158 of
`trio_stats.py`). -/
def trioStats (group_by_rank : Bool) (rows : List TrioRow) : TrioStats :=
  rows.foldl (bumpTrio group_by_rank) []

/-- `sum(v["wins"] for v in combos.values())` over one partition. -/
def totalWins {κ : Type} (combos : List (κ × Tally)) : ℚ :=
  (combos.map (fun p => p.2.wins)).sum

/-- `sum(v["games"] for v in combos.values())` over one partition. -/
def totalGames {κ : Type} (combos : List (κ × Tally)) : ℚ :=
  (combos.map (fun p => p.2.games)).sum

/-- Partition-wide `mean = total_wins / total_games` (spec §4.3 step 1). -/
def specMean {κ : Type} (combos : List (κ × Tally)) : ℚ :=
  totalWins combos / totalGames combos

/-- Partition-wide `strength = total_games / len(combos)` (spec §4.3
step 2). -/
def specStrength {κ : Type} (combos : List (κ × Tally)) : ℚ :=
  totalGames combos / (combos.length : ℚ)

/-- `alpha_prior = mean * strength` (spec §4.3 step 3). -/
def specAlphaPrior {κ : Type} (combos : List (κ × Tally)) : ℚ :=
  specMean combos * specStrength combos

/-- `beta_prior = (1 - mean) * strength` (spec §4.3 step 3). -/
def specBetaPrior {κ : Type} (combos : List (κ × Tally)) : ℚ :=
  (1 - specMean combos) * specStrength combos

/-- `beta_lcb(alpha, beta_param, confidence)` from `trio_stats.py`:
`beta.ppf(1 - confidence, alpha, beta_param)`, with the external
`scipy.stats.beta.ppf` routine passed in as the parameter `ppf`. -/
def beta_lcb (ppf : ℚ → ℚ → ℚ → ℚ) (alpha beta_param confidence : ℚ) : ℚ :=
  ppf (1 - confidence) alpha beta_param

/-- One output record of `compute_trio_scores` (the dict literal at lines
184–191 of `trio_stats.py`; its keys are the fields, in order). -/
structure TrioRecord where
  brawlers : List ℤ
  wins : ℤ
  losses : ℤ
  games : ℤ
  win_rate : ℚ
  win_rate_lcb : ℚ
deriving DecidableEq

/-- Builds the output record for one trio group exactly as the loop body of
`compute_trio_scores` does. -/
def mkTrioRecord (ppf : ℚ → ℚ → ℚ → ℚ) (confidence alphaPrior betaPrior : ℚ)
    (trio : List ℤ) (t : Tally) : TrioRecord :=
  let lossesVal := t.games - t.wins
  let alphaPost := alphaPrior + t.wins
  let betaPost := betaPrior + lossesVal
  { brawlers := trio
    wins := pyRound t.wins
    losses := pyRound lossesVal
    games := pyRound t.games
    win_rate := if 0 < t.games then t.wins / t.games else 0
    win_rate_lcb := beta_lcb ppf alphaPost betaPost confidence }

/-- Lexicographic `≤` on pairs of rationals. -/
def lexQLe (p q : ℚ × ℚ) : Prop := p.1 < q.1 ∨ (p.1 = q.1 ∧ p.2 ≤ q.2)

instance : DecidableRel lexQLe := fun p q =>
  inferInstanceAs (Decidable (p.1 < q.1 ∨ (p.1 = q.1 ∧ p.2 ≤ q.2)))

/-- The descending comparison used by `list.sort(key=..., reverse=True)`:
`a` may precede `b` when the key of `b` is lexicographically at most the key
of `a`. -/
def keyGE {β : Type} (key : β → ℚ × ℚ) (a b : β) : Prop :=
  lexQLe (key b) (key a)

instance {β : Type} (key : β → ℚ × ℚ) : DecidableRel (keyGE key) :=
  fun a b => inferInstanceAs (Decidable (lexQLe (key b) (key a)))

instance {β : Type} (key : β → ℚ × ℚ) : IsTotal β (keyGE key) where
  total a b := by
    rcases lt_trichotomy (key a).1 (key b).1 with h | h | h
    · exact Or.inr (Or.inl h)
    · rcases le_total (key b).2 (key a).2 with h2 | h2
      · exact Or.inl (Or.inr ⟨h.symm, h2⟩)
      · exact Or.inr (Or.inr ⟨h, h2⟩)
    · exact Or.inl (Or.inl h)

instance {β : Type} (key : β → ℚ × ℚ) : IsTrans β (keyGE key) where
  trans a b c hab hbc := by
    rcases hab with h1 | ⟨e1, le1⟩
    · rcases hbc with h2 | ⟨e2, _⟩
      · exact Or.inl (h2.trans h1)
      · exact Or.inl (e2.trans_lt h1)
    · rcases hbc with h2 | ⟨e2, le2⟩
      · exact Or.inl (h2.trans_eq e1)
      · exact Or.inr ⟨e2.trans e1, le2.trans le1⟩

/-- Sort key of a trio record: `(x["win_rate_lcb"], x["games"])`, the
integer games count cast (order-isomorphically) into `ℚ`. -/
def trioKey (r : TrioRecord) : ℚ × ℚ := (r.win_rate_lcb, (r.games : ℚ))

/-- Per-partition body of `compute_trio_scores` (lines 163–196 of
`trio_stats.py`): guard degenerate partitions, fit the Beta prior, build
one record per group with positive games, drop records under `min_games`,
and sort descending by `(win_rate_lcb, games)` (stable, as in Python). -/
def scoreCombos (ppf : ℚ → ℚ → ℚ → ℚ) (confidence : ℚ) (min_games : ℤ)
    (combos : List (List ℤ × Tally)) : List TrioRecord :=
  if totalGames combos ≤ 0 ∨ combos = [] then []
  else
    let alphaPrior := specAlphaPrior combos
    let betaPrior := specBetaPrior combos
    let trioList := combos.filterMap (fun p =>
      if p.2.games ≤ 0 then none
      else
        let r := mkTrioRecord ppf confidence alphaPrior betaPrior p.1 p.2
        if min_games ≤ r.games then some r else none)
    List.insertionSort (keyGE trioKey) trioList

/-- `compute_trio_scores` from `trio_stats.py`: nested map/rank partitions,
each scored by `scoreCombos`.  The Python keyword defaults
(`group_by_rank=True`, `min_games=0`, `confidence=0.95`) are carried over
as Lean default arguments. -/
def compute_trio_scores (ppf : ℚ → ℚ → ℚ → ℚ) (rows : List TrioRow)
    (group_by_rank : Bool := true) (min_games : ℤ := 0)
    (confidence : ℚ := 95 / 100) :
    List (ℤ × List (Option ℤ × List TrioRecord)) :=
  (trioStats group_by_rank rows).map (fun m =>
    (m.1, m.2.map (fun rk => (rk.1, scoreCombos ppf confidence min_games rk.2))))

/-- Double lookup into a nested map/rank result structure. -/
def alookup2 {α : Type} (res : List (ℤ × List (Option ℤ × α))) (m : ℤ)
    (rk : Option ℤ) : Option α :=
  (alookup m res).bind (alookup rk)

/-- The list of `(q, alpha, beta)` argument triples passed to
`beta.ppf` while scoring one partition: one call per group with positive
games, with the exact posterior parameters of the source (no clamping). -/
def combosPPFCalls (confidence : ℚ) (combos : List (List ℤ × Tally)) :
    List (ℚ × ℚ × ℚ) :=
  if totalGames combos ≤ 0 ∨ combos = [] then []
  else combos.filterMap (fun p =>
    if p.2.games ≤ 0 then none
    else some (1 - confidence, specAlphaPrior combos + p.2.wins,
               specBetaPrior combos + (p.2.games - p.2.wins)))

/-- All `beta.ppf` argument triples of a `compute_trio_scores` run. -/
def trioPPFCalls (group_by_rank : Bool) (confidence : ℚ)
    (rows : List TrioRow) : List (ℚ × ℚ × ℚ) :=
  ((trioStats group_by_rank rows).map (fun m =>
    (m.2.map (fun rk => combosPPFCalls confidence rk.2)).flatten)).flatten

/-- One row of the full-3v3 aggregation input (`MatchupRow` in
`export_3v3_win_rates.py`):
`(map_id, win_a, win_b, win_c, lose_a, lose_b, lose_c, wins)`. -/
structure MatchupRow where
  map_id : ℤ
  win_a : ℤ
  win_b : ℤ
  win_c : ℤ
  lose_a : ℤ
  lose_b : ℤ
  lose_c : ℤ
  wins : ℚ
deriving DecidableEq

/-- The accumulator of `compute_matchup_scores`:
`stats[map_id][(win_team, lose_team)] = wins`. -/
abbrev MatchupStats := List (ℤ × List ((List ℤ × List ℤ) × ℚ))

/-- One iteration of the accumulation loop of `compute_matchup_scores`:
canonicalize both trios and add the row's wins to the directional
`(win_team, lose_team)` bucket. -/
def bumpMatchup (acc : MatchupStats) (row : MatchupRow) : MatchupStats :=
  let win_team := canonTrio row.win_a row.win_b row.win_c
  let lose_team := canonTrio row.lose_a row.lose_b row.lose_c
  updWith (fun mo =>
      updWith (fun wo => wo.getD 0 + row.wins) (win_team, lose_team)
        (mo.getD []))
    row.map_id acc

/-- The accumulation loop of `compute_matchup_scores` (lines 133–136 of
`export_3v3_win_rates.py`). -/
def matchupStats (rows : List MatchupRow) : MatchupStats :=
  rows.foldl bumpMatchup []

/-- An orientation retained for scoring: `(win_team, lose_team)` together
with its own wins and the combined games `wins + reverse_wins`. -/
abbrev Orientation := (List ℤ × List ℤ) × ℚ × ℚ

/-- The orientation-selection loop of `compute_matchup_scores` (lines
142–147): combined games are the orientation's wins plus the mirror
orientation's wins, and orientations with combined games below the
threshold are skipped. -/
def orientationStats (thr : ℚ) (combos : List ((List ℤ × List ℤ) × ℚ)) :
    List Orientation :=
  combos.filterMap (fun p =>
    let reverseWins := (alookup (p.1.2, p.1.1) combos).getD 0
    let games := p.2 + reverseWins
    if games < thr then none else some (p.1, p.2, games))

/-- `sum(item[2] for item in orientation_stats)`. -/
def oTotalWins (os : List Orientation) : ℚ := (os.map (fun o => o.2.1)).sum

/-- `sum(item[3] for item in orientation_stats)`. -/
def oTotalGames (os : List Orientation) : ℚ := (os.map (fun o => o.2.2)).sum

/-- `mean = total_wins / total_games` over the retained orientations. -/
def oMean (os : List Orientation) : ℚ := oTotalWins os / oTotalGames os

/-- `strength = total_games / len(orientation_stats)`. -/
def oStrength (os : List Orientation) : ℚ :=
  oTotalGames os / (os.length : ℚ)

/-- `alpha_prior = mean * strength` over the retained orientations. -/
def oAlphaPrior (os : List Orientation) : ℚ := oMean os * oStrength os

/-- `beta_prior = (1 - mean) * strength` over the retained orientations. -/
def oBetaPrior (os : List Orientation) : ℚ := (1 - oMean os) * oStrength os

/-- One output record of `compute_matchup_scores` (the dict literal at
lines 170–175 of `export_3v3_win_rates.py`; its keys are the fields, in
order — note there is no `games` key). -/
structure MatchupRecord where
  win_brawlers : List ℤ
  lose_brawlers : List ℤ
  win_rate : ℚ
  win_rate_lcb : ℚ
deriving DecidableEq

/-- Builds the output record for one retained orientation exactly as the
loop body of `compute_matchup_scores` does. -/
def mkMatchupRecord (ppf : ℚ → ℚ → ℚ → ℚ)
    (confidence alphaPrior betaPrior : ℚ) (o : Orientation) : MatchupRecord :=
  let lossesVal := o.2.2 - o.2.1
  let alphaPost := alphaPrior + o.2.1
  let betaPost := betaPrior + lossesVal
  { win_brawlers := o.1.1
    lose_brawlers := o.1.2
    win_rate := if 0 < o.2.2 then o.2.1 / o.2.2 else 0
    win_rate_lcb := beta_lcb ppf alphaPost betaPost confidence }

/-- Sort key of a `(record, games)` pair:
`(item[0]["win_rate_lcb"], item[1])`. -/
def matchupKey (rg : MatchupRecord × ℚ) : ℚ × ℚ := (rg.1.win_rate_lcb, rg.2)

/-- Per-map body of `compute_matchup_scores` (lines 141–178): select
orientations with the effective threshold `max(min_games, 4)`, guard empty
or zero-games maps, fit the prior over the retained orientations only,
build `(record, games)` pairs and sort them descending by
`(win_rate_lcb, games)`. -/
def scoreMatchups (ppf : ℚ → ℚ → ℚ → ℚ) (confidence : ℚ) (min_games : ℤ)
    (combos : List ((List ℤ × List ℤ) × ℚ)) : List (MatchupRecord × ℚ) :=
  let ostats := orientationStats ((max min_games 4 : ℤ) : ℚ) combos
  if ostats = [] then []
  else if oTotalGames ostats ≤ 0 then []
  else
    let records := ostats.map (fun o =>
      (mkMatchupRecord ppf confidence (oAlphaPrior ostats) (oBetaPrior ostats) o,
       o.2.2))
    List.insertionSort (keyGE matchupKey) records

/-- `compute_matchup_scores` from `export_3v3_win_rates.py`: per-map scored
record lists, with the internal `games` sort component stripped from the
published records. -/
def compute_matchup_scores (ppf : ℚ → ℚ → ℚ → ℚ) (rows : List MatchupRow)
    (confidence : ℚ) (min_games : ℤ := 0) :
    List (ℤ × List MatchupRecord) :=
  (matchupStats rows).map (fun m =>
    (m.1, (scoreMatchups ppf confidence min_games m.2).map Prod.fst))

/-- One row of the pair aggregation input of `export_pair_stats.py`:
`(map_id, brawler_a, brawler_b, wins, losses)`. -/
structure PairRow where
  map_id : ℤ
  b1 : ℤ
  b2 : ℤ
  wins : ℚ
  losses : ℚ
deriving DecidableEq

/-- The accumulator of `compute_pair_rates`:
`stats[map_id][(b1, b2)] = {"wins": ..., "games": ...}`. -/
abbrev PairStats := List (ℤ × List ((ℤ × ℤ) × Tally))

/-- One iteration of the accumulation loop of `compute_pair_rates`. -/
def bumpPair (acc : PairStats) (row : PairRow) : PairStats :=
  updWith (fun mo =>
      updWith (addTally row.wins (row.wins + row.losses)) (row.b1, row.b2)
        (mo.getD []))
    row.map_id acc

/-- The accumulation loop of `compute_pair_rates` (lines 103–107 of
`export_pair_stats.py`). -/
def pairStats (rows : List PairRow) : PairStats :=
  rows.foldl bumpPair []

/-- Write `map_result[x][y] = v` on the nested `defaultdict(dict)` result
of `compute_pair_rates`. -/
def setCell (res : List (ℤ × List (ℤ × ℚ))) (x y : ℤ) (v : ℚ) :
    List (ℤ × List (ℤ × ℚ)) :=
  updWith (fun io => updWith (fun _ => v) y (io.getD [])) x res

/-- Per-map body of `compute_pair_rates` (lines 110–129 of
`export_pair_stats.py`): guard degenerate maps, fit the prior, and write
each pair's LCB into `map_result[b1][b2]` — and, when `symmetrical`, also
into `map_result[b2][b1]`.  The 2-argument `beta_lcb` call (with its
default confidence baked in) is modelled by the parameter `lcbFn`. -/
def computePairMap (lcbFn : ℚ → ℚ → ℚ) (symmetrical : Bool)
    (pairs : List ((ℤ × ℤ) × Tally)) : List (ℤ × List (ℤ × ℚ)) :=
  if totalGames pairs = 0 ∨ pairs = [] then []
  else
    pairs.foldl (fun acc p =>
      let lcb := lcbFn (specAlphaPrior pairs + p.2.wins)
        (specBetaPrior pairs + p.2.games - p.2.wins)
      let acc1 := setCell acc p.1.1 p.1.2 lcb
      if symmetrical then setCell acc1 p.1.2 p.1.1 lcb else acc1) []

/-- `compute_pair_rates` from `export_pair_stats.py`. -/
def compute_pair_rates (lcbFn : ℚ → ℚ → ℚ) (rows : List PairRow)
    (symmetrical : Bool) : List (ℤ × List (ℤ × List (ℤ × ℚ))) :=
  (pairStats rows).map (fun m => (m.1, computePairMap lcbFn symmetrical m.2))

/-- One row of the single-character aggregation input of
`export_win_rates.py`: `(map_id, brawler_id, wins, losses)`. -/
structure WinRow where
  map_id : ℤ
  brawler_id : ℤ
  wins : ℚ
  losses : ℚ
deriving DecidableEq

/-- One iteration of the accumulation loop of `compute_win_rates`. -/
def bumpWin (acc : List (ℤ × List (ℤ × Tally))) (row : WinRow) :
    List (ℤ × List (ℤ × Tally)) :=
  updWith (fun mo =>
      updWith (addTally row.wins (row.wins + row.losses)) row.brawler_id
        (mo.getD []))
    row.map_id acc

/-- The accumulation loop of `compute_win_rates` (lines 83–90 of
`export_win_rates.py`). -/
def winStats (rows : List WinRow) : List (ℤ × List (ℤ × Tally)) :=
  rows.foldl bumpWin []

/-- Per-map body of `compute_win_rates` (lines 97–113): guard degenerate
maps, fit the prior, and map each brawler to its LCB.  The Monte-Carlo
`beta_lcb` of `export_win_rates.py` is modelled by the abstract parameter
`lcbFn` (its value is irrelevant to the claims settled here). -/
def computeWinMap (lcbFn : ℚ → ℚ → ℚ) (brawlers : List (ℤ × Tally)) :
    List (ℤ × ℚ) :=
  if totalGames brawlers = 0 ∨ brawlers = [] then []
  else brawlers.map (fun p =>
    (p.1, lcbFn (specAlphaPrior brawlers + p.2.wins)
      (specBetaPrior brawlers + p.2.games - p.2.wins)))

/-- `compute_win_rates` from `export_win_rates.py`. -/
def compute_win_rates (lcbFn : ℚ → ℚ → ℚ) (rows : List WinRow) :
    List (ℤ × List (ℤ × ℚ)) :=
  (winStats rows).map (fun m => (m.1, computeWinMap lcbFn m.2))

/-- A JSON scalar/array value as far as the exported records are
concerned. -/
inductive JVal where
  | jint : ℤ → JVal
  | jrat : ℚ → JVal
  | jintList : List ℤ → JVal
deriving DecidableEq

/-- The key/value pairs of one `compute_trio_scores` record, in the order
of the dict literal of `trio_stats.py` lines 184–191. -/
def trioRecordFields (r : TrioRecord) : List (String × JVal) :=
  [("brawlers", JVal.jintList r.brawlers),
   ("wins", JVal.jint r.wins),
   ("losses", JVal.jint r.losses),
   ("games", JVal.jint r.games),
   ("win_rate", JVal.jrat r.win_rate),
   ("win_rate_lcb", JVal.jrat r.win_rate_lcb)]

/-- The key/value pairs of one `compute_matchup_scores` record, in the
order of the dict literal of `export_3v3_win_rates.py` lines 170–175. -/
def matchupRecordFields (r : MatchupRecord) : List (String × JVal) :=
  [("win_brawlers", JVal.jintList r.win_brawlers),
   ("lose_brawlers", JVal.jintList r.lose_brawlers),
   ("win_rate", JVal.jrat r.win_rate),
   ("win_rate_lcb", JVal.jrat r.win_rate_lcb)]

/-- The simplified record dict built by `export_trio_json` for one trio
record: its `brawlers`, `games` and `win_rate_lcb` keys. -/
def exportedTrioFields (combo : TrioRecord) : List (String × JVal) :=
  [("brawlers", JVal.jintList combo.brawlers),
   ("games", JVal.jint combo.games),
   ("win_rate_lcb", JVal.jrat combo.win_rate_lcb)]

/-- The per-map simplified records written by `export_trio_json`
(`export_trio_stats.py` lines 33–42): for each map, the rank-`None` list
is kept and each record is reduced to its `brawlers`, `games` and
`win_rate_lcb` keys. -/
def export_trio_json (results : List (ℤ × List (Option ℤ × List TrioRecord))) :
    List (ℤ × List (List (String × JVal))) :=
  results.map (fun m =>
    (m.1, ((alookup none m.2).getD []).map exportedTrioFields))

/-- Modelled from the spec: the cumulative distribution function of the
Beta distribution (the regularized incomplete beta function `I_x(a, b)`)
at positive integer parameters, where it has the standard closed form
`I_x(a, b) = ∑ C(a+b-1, j) x^j (1-x)^(a+b-1-j)` for `j = a, …, a+b-1`
(the survival function of a `Binomial(a+b-1, x)` at `a`).  The spec
describes `win_rate_lcb` as "the quantile function of the Beta
distribution evaluated at 1 - confidence"; this polynomial is the exact
mass-below-`x` function of that distribution for integer parameters, and
is used to state what values an implementation of the quantile may
return. -/
def betaCDFInt (a b : ℕ) (x : ℚ) : ℚ :=
  ((List.range b).map (fun i =>
    ((a + b - 1).choose (a + i) : ℚ) * x ^ (a + i) * (1 - x) ^ (b - 1 - i))).sum

/-- Modelled from the spec: the value `v` is an admissible result of the
Beta quantile routine at quantile level `q` and parameters `(a, b)` — it
lies in `[0, 1]` and, whenever both parameters are positive integers, the
Beta mass below `v` differs from `q` by at most `1/100` (the true quantile
has mass exactly `q` below it, and `scipy.stats.beta.ppf` is far more
accurate than `1/100`). -/
def ApproxBetaPPFAt (q a b v : ℚ) : Prop :=
  0 ≤ v ∧ v ≤ 1 ∧
    ∀ m n : ℕ, 0 < m → 0 < n → a = (m : ℚ) → b = (n : ℚ) →
      |betaCDFInt m n v - q| ≤ 1 / 100

/-- Nested lookup `res[a][b]` on a per-map pair-rate result. -/
def cellLookup (res : List (ℤ × List (ℤ × ℚ))) (a b : ℤ) : Option ℚ :=
  (alookup a res).bind (alookup b)

/-- Spec-side description of the orientations retained for scoring: the
directional pairings whose combined games (own wins plus mirror wins)
reach the threshold. -/
def specRetained (thr : ℚ) (combos : List ((List ℤ × List ℤ) × ℚ)) :
    List ((List ℤ × List ℤ) × ℚ) :=
  combos.filter (fun p =>
    decide (thr ≤ p.2 + ((alookup (p.1.2, p.1.1) combos).getD 0)))

/-- Two trio rows that agree on every field except that their three
character identifiers are permutations of each other. -/
def trioRowPermEq (r r' : TrioRow) : Prop :=
  r.map_id = r'.map_id ∧ r.rank_id = r'.rank_id ∧ r.mode_id = r'.mode_id ∧
  r.wins = r'.wins ∧ r.losses = r'.losses ∧
  [r.b1, r.b2, r.b3].Perm [r'.b1, r'.b2, r'.b3]

/-- A leaf tally is sound: nonnegative wins not exceeding games. -/
def TallyOK (t : Tally) : Prop := 0 ≤ t.wins ∧ t.wins ≤ t.games

/-- Input rows carry nonnegative win and loss counts (they are SQL
`COUNT`/`SUM` aggregates in the source). -/
abbrev TrioRowsValid (rows : List TrioRow) : Prop :=
  ∀ row ∈ rows, 0 ≤ row.wins ∧ 0 ≤ row.losses

/-- The boundedness claim of spec §8.1, as stated: whenever the quantile
routine behaves like the Beta quantile (to within `1/100` of posterior
mass) on every call of the run, every produced record satisfies
`0 ≤ win_rate_lcb ≤ win_rate ≤ 1`.  (The spec's claim additionally asserts
monotonicity in `games`; refuting this conjunct refutes the claim.) -/
def shrinkageBoundednessClaim : Prop :=
  ∀ (ppf : ℚ → ℚ → ℚ → ℚ) (rows : List TrioRow) (mg : ℤ) (m : ℤ)
    (rk : Option ℤ) (recs : List TrioRecord) (r : TrioRecord),
    TrioRowsValid rows →
    (∀ c ∈ trioPPFCalls true (95 / 100) rows,
      ApproxBetaPPFAt c.1 c.2.1 c.2.2 (ppf c.1 c.2.1 c.2.2)) →
    alookup2 (compute_trio_scores ppf rows true mg (95 / 100)) m rk = some recs →
    r ∈ recs →
    0 ≤ r.win_rate_lcb ∧ r.win_rate_lcb ≤ r.win_rate ∧ r.win_rate ≤ 1

/-- The degenerate-parameter-guard claim of spec §4.3 step 6, as stated:
every `(q, alpha, beta)` triple passed to the Beta quantile routine has
both parameters strictly positive (thanks to an epsilon clamp). -/
def epsilonClampClaim : Prop :=
  ∀ (rows : List TrioRow) (gb : Bool) (conf : ℚ),
    TrioRowsValid rows →
    ∀ c ∈ trioPPFCalls gb conf rows, 0 < c.2.1 ∧ 0 < c.2.2

/-- The trivially-bounded quantile stub used to instantiate witnesses. -/
def ppf0 : ℚ → ℚ → ℚ → ℚ := fun _ _ _ => 0

/-- A two-argument LCB stub used to instantiate witnesses. -/
def lcb0 : ℚ → ℚ → ℚ := fun _ _ => 0

/-- A quantile function agreeing with the Beta quantile to well within
`1/100` on the two calls of the `rowsC2` run: Beta(3,1) has mass
`0.368³ ≈ 0.0498` below `0.368` and Beta(1,3) has mass
`1 - 0.983³ ≈ 0.0501` below `0.017` (target mass `1 - 0.95 = 0.05`). -/
def ppfC2 : ℚ → ℚ → ℚ → ℚ := fun _ a _ =>
  if a = 1 then 17 / 1000 else 368 / 1000

/-- Two trio rows on one map/rank: trio `[1,2,3]` with 2 wins, trio
`[4,5,6]` with 2 losses (partition mean `1/2`, strength `2`). -/
def rowsC2 : List TrioRow := [⟨1, 1, 0, 1, 2, 3, 2, 0⟩, ⟨1, 1, 0, 4, 5, 6, 0, 2⟩]

/-- A single all-loss trio row: partition mean `0`, so the posterior alpha
parameter passed to the quantile routine is exactly `0`. -/
def rowsC3 : List TrioRow := [⟨1, 1, 0, 1, 2, 3, 0, 2⟩]

/-- A trio row with zero wins and zero losses: a partition present in the
accumulator whose total games are `0`. -/
def rowsC7 : List TrioRow := [⟨1, 1, 0, 1, 2, 3, 0, 0⟩]

/-- The spec §8.9 scenario: pairing `([1,2,3], [4,5,6])` observed `5`
times and its mirror observed once. -/
def rows45 : List MatchupRow := [⟨1, 1, 2, 3, 4, 5, 6, 5⟩, ⟨1, 4, 5, 6, 1, 2, 3, 1⟩]

/-- A single directional pairing with 2 observations and no mirror:
combined games `2`, below the implicit floor of `4`. -/
def rows10 : List MatchupRow := [⟨1, 1, 2, 3, 4, 5, 6, 2⟩]

/-- A single synergy pair row: map `1`, pair `(1, 2)`, 2 wins, 1 loss. -/
def pairRowsW : List PairRow := [⟨1, 1, 2, 2, 1⟩]

/-- A single-character row used for the empty-partition witness: zero wins
and zero losses. -/
def winRowsW : List WinRow := [⟨1, 7, 0, 0⟩]

/-- The record `compute_matchup_scores` produces for the winning
orientation of `rows45` under `ppf0`. -/
def mr45 : MatchupRecord := ⟨[1, 2, 3], [4, 5, 6], 5 / 6, 0⟩

/-- The record `compute_trio_scores` produces for the all-loss trio of
`rowsC2` under `ppfC2`: raw win rate `0` but `win_rate_lcb = 0.017`. -/
def recC2 : TrioRecord := ⟨[4, 5, 6], 0, 2, 2, 0, 17 / 1000⟩

/-- The full record list of the `rowsC2` partition under `ppfC2`. -/
def recsC2 : List TrioRecord := [⟨[1, 2, 3], 2, 0, 2, 1, 46 / 125⟩, recC2]

/-- The accumulated tallies of the single `rowsC2` partition. -/
def combosC2 : List (List ℤ × Tally) := [([1, 2, 3], ⟨2, 2⟩), ([4, 5, 6], ⟨0, 2⟩)]

/-- The accumulated tallies of the single `rowsC3` partition. -/
def combosC3 : List (List ℤ × Tally) := [([1, 2, 3], ⟨0, 2⟩)]

/-- The accumulated tallies of the single `rows45` map. -/
def combos45 : List ((List ℤ × List ℤ) × ℚ) :=
  [(([1, 2, 3], [4, 5, 6]), 5), (([4, 5, 6], [1, 2, 3]), 1)]

/-- The record `compute_matchup_scores` produces for the mirror
orientation of `rows45` under `ppf0`. -/
def mr45b : MatchupRecord := ⟨[4, 5, 6], [1, 2, 3], 1 / 6, 0⟩

/-- A trio row whose identifiers appear in the order `(3, 1, 2)`. -/
def rowsC9 : List TrioRow := [⟨1, 1, 0, 3, 1, 2, 1, 0⟩]

/-- The same row with identifiers in the order `(1, 2, 3)`. -/
def rowsC9b : List TrioRow := [⟨1, 1, 0, 1, 2, 3, 1, 0⟩]

/-! ## Helper lemmas -/

theorem alookup_updWith {κ τ : Type} [DecidableEq κ] (f : Option τ → τ)
    (k k' : κ) (m : List (κ × τ)) :
    alookup k' (updWith f k m) =
      if k' = k then some (f (alookup k m)) else alookup k' m := by
  induction m with
  | nil =>
      by_cases h : k' = k
      · subst h; simp [updWith, alookup]
      · simp [updWith, alookup, h, Ne.symm h]
  | cons e rest ih =>
      obtain ⟨ke, te⟩ := e
      by_cases hek : ke = k
      · subst hek
        by_cases h : k' = ke
        · subst h; simp [updWith, alookup]
        · simp [updWith, alookup, h, Ne.symm h]
      · by_cases h : k' = k
        · subst h
          simp [updWith, alookup, hek, ih]
        · simp [updWith, alookup, hek, h, ih]

/-- Every entry of `updWith f k m` is either an entry of `m` or the updated
entry `(k, f (alookup k m))`. -/
theorem mem_updWith {κ τ : Type} [DecidableEq κ] {f : Option τ → τ}
    {k : κ} {m : List (κ × τ)} {e : κ × τ} (he : e ∈ updWith f k m) :
    e ∈ m ∨ e = (k, f (alookup k m)) := by
  induction m with
  | nil =>
      simp [updWith] at he
      right
      simp [he, alookup]
  | cons hd rest ih =>
      obtain ⟨ke, te⟩ := hd
      by_cases hek : ke = k
      · subst hek
        simp [updWith, alookup] at he
        rcases he with he | he
        · right; simp [he, alookup]
        · left; simp [he]
      · simp [updWith, hek] at he
        rcases he with he | he
        · left; simp [he]
        · rcases ih he with h | h
          · left; simp [h]
          · right
            simpa [alookup, hek] using h

/-- Looking a key up in a value-mapped association list. -/
theorem alookup_mapVals {κ τ σ : Type} [DecidableEq κ] (g : κ → τ → σ)
    (k : κ) (m : List (κ × τ)) :
    alookup k (m.map (fun e => (e.1, g e.1 e.2))) =
      (alookup k m).map (g k) := by
  induction m with
  | nil => simp [alookup]
  | cons e rest ih =>
      by_cases h : e.1 = k
      · subst h; simp [alookup, ih]
      · simp [alookup, Ne.symm h, h, ih]

/-- Sorting identifier lists is invariant under permutation of the input. -/
theorem sortIds_eq_of_perm {l l' : List ℤ} (h : l.Perm l') :
    sortIds l = sortIds l' :=
  List.eq_of_perm_of_sorted
    (((l.perm_insertionSort (· ≤ ·)).trans h).trans
      (l'.perm_insertionSort (· ≤ ·)).symm)
    (List.sorted_insertionSort _ l) (List.sorted_insertionSort _ l')

/-- A successful association-list lookup exhibits a member. -/
theorem alookup_mem {κ τ : Type} [DecidableEq κ] {k : κ} {m : List (κ × τ)}
    {v : τ} (h : alookup k m = some v) : (k, v) ∈ m := by
  induction m with
  | nil => simp [alookup] at h
  | cons e rest ih =>
      obtain ⟨ke, te⟩ := e
      by_cases hek : ke = k
      · subst hek
        simp [alookup] at h
        simp [h]
      · simp [alookup, hek] at h
        simp [ih h]

/-- `updWith` preserves a predicate on all stored values, provided the
updated value satisfies it. -/
theorem updWith_forall {κ τ : Type} [DecidableEq κ] {P : τ → Prop}
    {f : Option τ → τ} {k : κ} {m : List (κ × τ)}
    (hm : ∀ e ∈ m, P e.2) (hf : P (f (alookup k m))) :
    ∀ e ∈ updWith f k m, P e.2 := by
  intro e he
  rcases mem_updWith he with h | h
  · exact hm e h
  · rw [h]; exact hf

/-- Membership characterization of the per-partition scored record list:
a record is produced exactly when the partition is non-degenerate and the
record is the one built for some group with positive games that passes the
`min_games` filter. -/
theorem mem_scoreCombos {ppf : ℚ → ℚ → ℚ → ℚ} {conf : ℚ} {mg : ℤ}
    {combos : List (List ℤ × Tally)} {r : TrioRecord} :
    r ∈ scoreCombos ppf conf mg combos ↔
      ¬(totalGames combos ≤ 0 ∨ combos = []) ∧
      ∃ p ∈ combos, ¬p.2.games ≤ 0 ∧
        mg ≤ (mkTrioRecord ppf conf (specAlphaPrior combos)
          (specBetaPrior combos) p.1 p.2).games ∧
        r = mkTrioRecord ppf conf (specAlphaPrior combos)
          (specBetaPrior combos) p.1 p.2 := by
  simp only [scoreCombos]
  split
  case isTrue h => simp [h]
  case isFalse h =>
    rw [List.mem_insertionSort, List.mem_filterMap]
    simp only [h, not_false_iff, true_and]
    constructor
    · rintro ⟨p, hp, hf⟩
      by_cases h1 : p.2.games ≤ 0
      · simp [h1] at hf
      · by_cases h2 : mg ≤ (mkTrioRecord ppf conf (specAlphaPrior combos)
            (specBetaPrior combos) p.1 p.2).games
        · refine ⟨p, hp, h1, h2, ?_⟩
          simp only [h1, if_false, h2, if_true] at hf
          exact (Option.some_inj.mp hf).symm
        · simp [h1, h2] at hf
    · rintro ⟨p, hp, h1, h2, rfl⟩
      exact ⟨p, hp, by simp [h1, h2]⟩

/-- Each scored record list is sorted with respect to the descending
`(win_rate_lcb, games)` comparison. -/
theorem sorted_scoreCombos (ppf : ℚ → ℚ → ℚ → ℚ) (conf : ℚ) (mg : ℤ)
    (combos : List (List ℤ × Tally)) :
    List.Sorted (keyGE trioKey) (scoreCombos ppf conf mg combos) := by
  simp only [scoreCombos]
  split
  · exact List.sorted_nil
  · exact List.sorted_insertionSort (keyGE trioKey) _

/-- Looking up a partition of `compute_trio_scores` is looking up the
accumulator and scoring it. -/
theorem alookup2_compute_trio (ppf : ℚ → ℚ → ℚ → ℚ) (conf : ℚ) (mg : ℤ)
    (gb : Bool) (rows : List TrioRow) (m : ℤ) (rk : Option ℤ) :
    alookup2 (compute_trio_scores ppf rows gb mg conf) m rk =
      (alookup2 (trioStats gb rows) m rk).map (scoreCombos ppf conf mg) := by
  unfold compute_trio_scores alookup2
  rw [alookup_mapVals
    (fun _ ranks => ranks.map (fun rk => (rk.1, scoreCombos ppf conf mg rk.2)))
    m (trioStats gb rows)]
  cases h : alookup m (trioStats gb rows) with
  | none => simp
  | some ranks =>
      simp only [Option.map_some', Option.some_bind]
      rw [alookup_mapVals (fun _ combos => scoreCombos ppf conf mg combos)
        rk ranks]

/-- Looking up a map of `compute_matchup_scores` is looking up the
accumulator, scoring it and stripping the sort component. -/
theorem alookup_compute_matchup (ppf : ℚ → ℚ → ℚ → ℚ) (conf : ℚ) (mg : ℤ)
    (rows : List MatchupRow) (m : ℤ) :
    alookup m (compute_matchup_scores ppf rows conf mg) =
      (alookup m (matchupStats rows)).map
        (fun combos => (scoreMatchups ppf conf mg combos).map Prod.fst) := by
  unfold compute_matchup_scores
  rw [alookup_mapVals
    (fun _ combos => (scoreMatchups ppf conf mg combos).map Prod.fst)
    m (matchupStats rows)]

/-- Looking up a map of `compute_pair_rates` is looking up the accumulator
and running the per-map body. -/
theorem alookup_compute_pair (lcbFn : ℚ → ℚ → ℚ) (rows : List PairRow)
    (symm : Bool) (m : ℤ) :
    alookup m (compute_pair_rates lcbFn rows symm) =
      (alookup m (pairStats rows)).map (computePairMap lcbFn symm) := by
  unfold compute_pair_rates
  rw [alookup_mapVals (fun _ pairs => computePairMap lcbFn symm pairs)
    m (pairStats rows)]

/-- Looking up a map of `compute_win_rates` is looking up the accumulator
and running the per-map body. -/
theorem alookup_compute_win (lcbFn : ℚ → ℚ → ℚ) (rows : List WinRow)
    (m : ℤ) :
    alookup m (compute_win_rates lcbFn rows) =
      (alookup m (winStats rows)).map (computeWinMap lcbFn) := by
  unfold compute_win_rates
  rw [alookup_mapVals (fun _ brawlers => computeWinMap lcbFn brawlers)
    m (winStats rows)]

/-- All leaf tallies of a trio accumulator are sound. -/
def TrioStatsOK (acc : TrioStats) : Prop :=
  ∀ me ∈ acc, ∀ re ∈ me.2, ∀ pe ∈ re.2, TallyOK pe.2

/-- A list of nonnegative rationals summing to zero is all zeros. -/
theorem sum_zero_of_nonneg {l : List ℚ} (h : ∀ x ∈ l, 0 ≤ x)
    (hz : l.sum = 0) : ∀ x ∈ l, x = 0 := by
  induction l with
  | nil => intro x hx; simp at hx
  | cons hd tl ih =>
      have htl : 0 ≤ tl.sum :=
        List.sum_nonneg (fun x hx => h x (by simp [hx]))
      have hhd : 0 ≤ hd := h hd (by simp)
      rw [List.sum_cons] at hz
      have hhd0 : hd = 0 := by linarith
      have htl0 : tl.sum = 0 := by linarith
      intro x hx
      rcases List.mem_cons.mp hx with rfl | hx
      · exact hhd0
      · exact ih (fun y hy => h y (by simp [hy])) htl0 x hx

/-- Leaf tallies reachable through a double lookup in a sound accumulator
are sound. -/
theorem trioStats_chain {acc : TrioStats} (hacc : TrioStatsOK acc)
    (mid : ℤ) (rk : Option ℤ) :
    ∀ pe ∈ (alookup rk ((alookup mid acc).getD [])).getD [], TallyOK pe.2 := by
  intro pe hpe
  cases h0 : alookup mid acc with
  | none => rw [h0] at hpe; simp [alookup] at hpe
  | some ranks =>
      rw [h0] at hpe
      cases h1 : alookup rk ranks with
      | none => rw [Option.getD_some] at hpe; rw [h1] at hpe; simp at hpe
      | some combos =>
          rw [Option.getD_some] at hpe
          rw [h1, Option.getD_some] at hpe
          exact hacc (mid, ranks) (alookup_mem h0) (rk, combos)
            (alookup_mem h1) pe hpe

/-- One accumulation step preserves tally soundness when the row's wins
and losses are nonnegative. -/
theorem bumpTrio_ok {gb : Bool} {acc : TrioStats} {row : TrioRow}
    (hacc : TrioStatsOK acc) (hw : 0 ≤ row.wins) (hl : 0 ≤ row.losses) :
    TrioStatsOK (bumpTrio gb acc row) := by
  simp only [bumpTrio, TrioStatsOK]
  refine updWith_forall
    (P := fun (ranks : List (Option ℤ × List (List ℤ × Tally))) =>
      ∀ re ∈ ranks, ∀ pe ∈ re.2, TallyOK pe.2) hacc ?_
  refine updWith_forall
    (P := fun (combos : List (List ℤ × Tally)) =>
      ∀ pe ∈ combos, TallyOK pe.2) ?_ ?_
  · intro re hre
    cases h0 : alookup row.map_id acc with
    | none => rw [h0] at hre; simp at hre
    | some ranks =>
        rw [h0, Option.getD_some] at hre
        exact hacc (row.map_id, ranks) (alookup_mem h0) re hre
  · refine updWith_forall (P := TallyOK) (trioStats_chain hacc _ _) ?_
    cases h2 : alookup (canonTrio row.b1 row.b2 row.b3)
        ((alookup (if gb = true then some row.rank_id else none)
          ((alookup row.map_id acc).getD [])).getD []) with
    | none =>
        refine ⟨by simpa [addTally] using hw, ?_⟩
        simp only [addTally]
        linarith
    | some t =>
        have ht : TallyOK t :=
          trioStats_chain hacc row.map_id _ (_, t) (alookup_mem h2)
        exact ⟨by simp only [addTally]; linarith [ht.1],
          by simp only [addTally]; linarith [ht.2]⟩

/-- All tallies accumulated from valid rows are sound. -/
theorem trioStats_ok (gb : Bool) {rows : List TrioRow}
    (h : TrioRowsValid rows) : TrioStatsOK (trioStats gb rows) := by
  have main : ∀ (rows' : List TrioRow) (acc : TrioStats),
      (∀ row ∈ rows', 0 ≤ TrioRow.wins row ∧ 0 ≤ TrioRow.losses row) →
      TrioStatsOK acc → TrioStatsOK (List.foldl (bumpTrio gb) acc rows') := by
    intro rows'
    induction rows' with
    | nil => intro acc _ hacc; exact hacc
    | cons hd tl ih =>
        intro acc hval hacc
        have hhd := hval hd (by simp)
        exact ih (bumpTrio gb acc hd)
          (fun row hm => hval row (by simp [hm]))
          (bumpTrio_ok hacc hhd.1 hhd.2)
  exact main rows [] h (by intro me hme; simp at hme)

/-! ## Claim theorems -/

/-- C1: for every partition with positive total games,
`compute_trio_scores` fits `mean = Σwins/Σgames` and
`strength = Σgames/#groups`, sets `alpha_prior = mean * strength` and
`beta_prior = (1 - mean) * strength`, and every produced record's
`win_rate_lcb` is the Beta quantile function evaluated at
`1 - confidence` with `alpha_post = alpha_prior + wins` and
`beta_post = beta_prior + (games - wins)`; conversely every group with
positive games passing the `min_games` filter yields exactly that record;
the `confidence` argument defaults to `0.95`. -/
theorem trio_shrinkage_formula (ppf : ℚ → ℚ → ℚ → ℚ) (conf : ℚ) (mg : ℤ)
    (gb : Bool) (rows : List TrioRow) (m : ℤ) (rk : Option ℤ)
    (combos : List (List ℤ × Tally)) (recs : List TrioRecord)
    (hc : alookup2 (trioStats gb rows) m rk = some combos)
    (hg : 0 < totalGames combos)
    (hr : alookup2 (compute_trio_scores ppf rows gb mg conf) m rk = some recs) :
    (∀ r ∈ recs, ∃ p ∈ combos, 0 < p.2.games ∧ r.brawlers = p.1 ∧
        r.win_rate_lcb =
          ppf (1 - conf)
            (specMean combos * specStrength combos + p.2.wins)
            ((1 - specMean combos) * specStrength combos +
              (p.2.games - p.2.wins))) ∧
    (∀ p ∈ combos, 0 < p.2.games → mg ≤ pyRound p.2.games →
        mkTrioRecord ppf conf (specAlphaPrior combos) (specBetaPrior combos)
          p.1 p.2 ∈ recs) ∧
    compute_trio_scores ppf rows gb mg =
      compute_trio_scores ppf rows gb mg (95 / 100) := by
  have hguard : ¬(totalGames combos ≤ 0 ∨ combos = []) := by
    rintro (h | h)
    · exact absurd hg (not_lt.mpr h)
    · rw [h] at hg
      simp [totalGames] at hg
  have hrecs : recs = scoreCombos ppf conf mg combos := by
    rw [alookup2_compute_trio, hc] at hr
    exact (Option.some_inj.mp hr).symm
  subst hrecs
  refine ⟨?_, ?_, rfl⟩
  · intro r hrmem
    rcases mem_scoreCombos.mp hrmem with ⟨-, p, hp, h1, h2, rfl⟩
    exact ⟨p, hp, not_le.mp h1, rfl, rfl⟩
  · intro p hp hpos hmg
    exact mem_scoreCombos.mpr ⟨hguard, p, hp, not_le.mpr hpos, hmg, rfl⟩

unseal Rat.add Rat.sub Rat.mul Rat.inv in
theorem trio_shrinkage_formula_witness :
    ∃ p ∈ combosC2, 0 < p.2.games ∧ recC2.brawlers = p.1 ∧
      recC2.win_rate_lcb =
        ppfC2 (1 - 95 / 100)
          (specMean combosC2 * specStrength combosC2 + p.2.wins)
          ((1 - specMean combosC2) * specStrength combosC2 +
            (p.2.games - p.2.wins)) :=
  (trio_shrinkage_formula ppfC2 (95 / 100) 0 true rowsC2 1 (some 1)
    combosC2 recsC2 (by decide) (by decide) (by decide)).1 recC2 (by decide)

/-- C7: a partition present in the accumulator with zero total games or no
groups yields the empty record list, and an empty input yields an empty
result — for both the trio and the single-character pipelines (the guards
fire before any division, so no error path and no NaN exists). -/
theorem empty_partition_empty_result :
    (∀ (ppf : ℚ → ℚ → ℚ → ℚ) (conf : ℚ) (mg : ℤ) (gb : Bool)
        (rows : List TrioRow) (m : ℤ) (rk : Option ℤ)
        (combos : List (List ℤ × Tally)),
      alookup2 (trioStats gb rows) m rk = some combos →
      totalGames combos = 0 ∨ combos = [] →
      alookup2 (compute_trio_scores ppf rows gb mg conf) m rk = some []) ∧
    (∀ (ppf : ℚ → ℚ → ℚ → ℚ) (conf : ℚ) (mg : ℤ) (gb : Bool),
      compute_trio_scores ppf ([] : List TrioRow) gb mg conf = []) ∧
    (∀ (lcbFn : ℚ → ℚ → ℚ) (rows : List WinRow) (m : ℤ)
        (brawlers : List (ℤ × Tally)),
      alookup m (winStats rows) = some brawlers →
      totalGames brawlers = 0 ∨ brawlers = [] →
      alookup m (compute_win_rates lcbFn rows) = some []) ∧
    (∀ lcbFn : ℚ → ℚ → ℚ, compute_win_rates lcbFn [] = []) := by
  refine ⟨?_, fun _ _ _ _ => rfl, ?_, fun _ => rfl⟩
  · intro ppf conf mg gb rows m rk combos hc hdeg
    rw [alookup2_compute_trio, hc]
    simp only [Option.map_some']
    congr 1
    simp only [scoreCombos]
    rw [if_pos]
    rcases hdeg with h | h
    · exact Or.inl (le_of_eq h)
    · exact Or.inr h
  · intro lcbFn rows m brawlers hb hdeg
    rw [alookup_compute_win, hb]
    simp only [Option.map_some']
    congr 1
    simp only [computeWinMap]
    rw [if_pos hdeg]

unseal Rat.add Rat.sub Rat.mul Rat.inv in
theorem empty_partition_empty_result_witness :
    alookup2 (compute_trio_scores ppf0 rowsC7 true 0 (95 / 100)) 1
      (some 1) = some [] ∧
    alookup 1 (compute_win_rates lcb0 winRowsW) = some [] :=
  ⟨empty_partition_empty_result.1 ppf0 (95 / 100) 0 true rowsC7 1 (some 1)
    [([1, 2, 3], ⟨0, 0⟩)] (by decide) (Or.inl (by decide)),
   empty_partition_empty_result.2.2.1 lcb0 winRowsW 1 [(7, ⟨0, 0⟩)]
    (by decide) (Or.inl (by decide))⟩

unseal Rat.add Rat.sub Rat.mul Rat.inv in
/-- C10: the effective orientation-retention threshold of
`compute_matchup_scores` is `max(min_games, 4)` — passing any `min_games`
below `4` (including the signature default `0`) is the same as passing
`4`, so the caller can raise the threshold but never lower it below `4`;
concretely, a lone orientation with combined games `2` is dropped even
with `min_games = 0`. -/
theorem matchup_min_games_floor :
    (∀ (ppf : ℚ → ℚ → ℚ → ℚ) (rows : List MatchupRow) (conf : ℚ) (mg : ℤ),
      compute_matchup_scores ppf rows conf mg =
        compute_matchup_scores ppf rows conf (max mg 4)) ∧
    (∀ (ppf : ℚ → ℚ → ℚ → ℚ) (rows : List MatchupRow) (conf : ℚ) (mg : ℤ),
      mg ≤ 4 →
      compute_matchup_scores ppf rows conf mg =
        compute_matchup_scores ppf rows conf 4) ∧
    compute_matchup_scores ppf0 rows10 (95 / 100) 0 = [(1, [])] := by
  have key : ∀ (ppf : ℚ → ℚ → ℚ → ℚ) (rows : List MatchupRow) (conf : ℚ)
      (mg : ℤ), compute_matchup_scores ppf rows conf mg =
        compute_matchup_scores ppf rows conf (max mg 4) := by
    intro ppf rows conf mg
    simp only [compute_matchup_scores, scoreMatchups, max_assoc, max_self]
  refine ⟨key, ?_, by decide⟩
  intro ppf rows conf mg h
  rw [key, max_eq_right h]

theorem matchup_min_games_floor_witness :
    compute_matchup_scores ppf0 rows10 (95 / 100) 0 =
      compute_matchup_scores ppf0 rows10 (95 / 100) 4 :=
  matchup_min_games_floor.2.1 ppf0 rows10 (95 / 100) 0 (by decide)

unseal Rat.add Rat.sub Rat.mul Rat.inv in
/-- C3 counterexample: on the all-loss partition `rowsC3` (partition mean
`0`) the quantile routine is invoked with posterior alpha exactly `0` —
there is no epsilon clamp in the code, so the claimed guard is false. -/
theorem no_epsilon_clamp_counterexample : ¬epsilonClampClaim := by
  intro h
  have := h rowsC3 true (95 / 100) (by decide) (1 / 20, 0, 4) (by decide)
  exact absurd this.1 (by decide)

/-- C3 (amended): no clamping occurs — every group with positive games in
a non-degenerate partition contributes the exact unclamped posterior
triple `(1 - confidence, alpha_prior + wins, beta_prior + (games - wins))`
to the quantile routine, these per-partition calls all occur in the run's
call list, and when the partition's total wins are `0` (mean `0`) the
alpha parameter passed is exactly `0` for every group — not strictly
positive. -/
theorem no_epsilon_clamp (conf : ℚ) (gb : Bool) (rows : List TrioRow)
    (m : ℤ) (rk : Option ℤ) (combos : List (List ℤ × Tally))
    (hval : TrioRowsValid rows)
    (hc : alookup2 (trioStats gb rows) m rk = some combos)
    (hg : 0 < totalGames combos) :
    (∀ p ∈ combos, 0 < p.2.games →
      (1 - conf, specAlphaPrior combos + p.2.wins,
        specBetaPrior combos + (p.2.games - p.2.wins)) ∈
          combosPPFCalls conf combos) ∧
    (∀ c ∈ combosPPFCalls conf combos, c ∈ trioPPFCalls gb conf rows) ∧
    (totalWins combos = 0 → ∀ p ∈ combos, 0 < p.2.games →
      specAlphaPrior combos + p.2.wins = 0) := by
  have hguard : ¬(totalGames combos ≤ 0 ∨ combos = []) := by
    rintro (h | h)
    · exact absurd hg (not_lt.mpr h)
    · rw [h] at hg
      simp [totalGames] at hg
  refine ⟨?_, ?_, ?_⟩
  · intro p hp hpos
    simp only [combosPPFCalls]
    rw [if_neg hguard, List.mem_filterMap]
    exact ⟨p, hp, by rw [if_neg (not_le.mpr hpos)]⟩
  · intro c hcall
    unfold alookup2 at hc
    cases h0 : alookup m (trioStats gb rows) with
    | none => rw [h0] at hc; simp at hc
    | some ranks =>
        rw [h0] at hc
        simp only [Option.some_bind] at hc
        unfold trioPPFCalls
        rw [List.mem_flatten]
        refine ⟨(ranks.map (fun rk => combosPPFCalls conf rk.2)).flatten,
          List.mem_map_of_mem _ (alookup_mem h0), ?_⟩
        rw [List.mem_flatten]
        exact ⟨combosPPFCalls conf combos,
          List.mem_map_of_mem _ (alookup_mem hc), hcall⟩
  · intro hzero p hp hpos
    have hok : ∀ x ∈ combos.map (fun p => p.2.wins), 0 ≤ x := by
      intro x hx
      rcases List.mem_map.mp hx with ⟨q, hq, rfl⟩
      have hstats := trioStats_ok gb hval
      unfold alookup2 at hc
      cases h0 : alookup m (trioStats gb rows) with
      | none => rw [h0] at hc; simp at hc
      | some ranks =>
          rw [h0] at hc
          simp only [Option.some_bind] at hc
          exact (hstats (m, ranks) (alookup_mem h0) (rk, combos)
            (alookup_mem hc) q hq).1
    have hwz : p.2.wins = 0 := by
      have := sum_zero_of_nonneg hok (by simpa [totalWins] using hzero)
      exact this p.2.wins (List.mem_map_of_mem _ hp)
    have hmean : specMean combos = 0 := by
      simp [specMean, hzero]
    simp [specAlphaPrior, hmean, hwz]

unseal Rat.add Rat.sub Rat.mul Rat.inv in
theorem no_epsilon_clamp_witness :
    specAlphaPrior combosC3 + (0 : ℚ) = 0 :=
  (no_epsilon_clamp (95 / 100) true rowsC3 1 (some 1) combosC3 (by decide)
    (by decide) (by decide)).2.2 (by decide) ([1, 2, 3], ⟨0, 2⟩) (by decide)
    (by decide)

/-- C9: rows whose trio identifiers are permutations of one another
accumulate into the same tally bucket — both the accumulator and the full
output of `compute_trio_scores` are invariant under per-row permutation of
the three identifiers, because the group key is the ascending sort of the
identifiers. -/
theorem trio_grouping_canonicalization (gb : Bool)
    (rows rowsb : List TrioRow) (h : List.Forall₂ trioRowPermEq rows rowsb) :
    trioStats gb rows = trioStats gb rowsb ∧
    ∀ (ppf : ℚ → ℚ → ℚ → ℚ) (conf : ℚ) (mg : ℤ),
      compute_trio_scores ppf rows gb mg conf =
        compute_trio_scores ppf rowsb gb mg conf := by
  have hb : ∀ (acc : TrioStats) (r rb : TrioRow), trioRowPermEq r rb →
      bumpTrio gb acc r = bumpTrio gb acc rb := by
    intro acc r rb hp
    obtain ⟨h1, h2, h3, h4, h5, h6⟩ := hp
    simp only [bumpTrio, h1, h2, h4, h5, canonTrio, sortIds_eq_of_perm h6]
  have hstats : ∀ (l lb : List TrioRow), List.Forall₂ trioRowPermEq l lb →
      ∀ acc : TrioStats,
        List.foldl (bumpTrio gb) acc l = List.foldl (bumpTrio gb) acc lb := by
    intro l lb hf
    induction hf with
    | nil => intro acc; rfl
    | cons hhd htl ih =>
        intro acc
        simp only [List.foldl_cons]
        rw [hb acc _ _ hhd]
        exact ih _
  have h1 : trioStats gb rows = trioStats gb rowsb := hstats rows rowsb h []
  exact ⟨h1, fun ppf conf mg => by simp only [compute_trio_scores, h1]⟩

theorem trio_grouping_canonicalization_witness :
    trioStats true rowsC9 = trioStats true rowsC9b :=
  (trio_grouping_canonicalization true rowsC9 rowsC9b
    (List.Forall₂.cons ⟨rfl, rfl, rfl, rfl, rfl, by decide⟩
      List.Forall₂.nil)).1

/-- Membership characterization of the orientation-selection loop. -/
theorem mem_orientationStats {thr : ℚ}
    {combos : List ((List ℤ × List ℤ) × ℚ)} {o : Orientation} :
    o ∈ orientationStats thr combos ↔
      ∃ p ∈ combos,
        ¬(p.2 + ((alookup (p.1.2, p.1.1) combos).getD 0) < thr) ∧
        o = (p.1, p.2, p.2 + ((alookup (p.1.2, p.1.1) combos).getD 0)) := by
  simp only [orientationStats, List.mem_filterMap]
  constructor
  · rintro ⟨p, hp, hf⟩
    by_cases hlt : p.2 + ((alookup (p.1.2, p.1.1) combos).getD 0) < thr
    · simp [hlt] at hf
    · refine ⟨p, hp, hlt, ?_⟩
      rw [if_neg hlt] at hf
      exact (Option.some_inj.mp hf).symm
  · rintro ⟨p, hp, hlt, rfl⟩
    exact ⟨p, hp, by rw [if_neg hlt]⟩

/-- Each scored matchup list is sorted with respect to the descending
`(win_rate_lcb, games)` comparison. -/
theorem sorted_scoreMatchups (ppf : ℚ → ℚ → ℚ → ℚ) (conf : ℚ) (mg : ℤ)
    (combos : List ((List ℤ × List ℤ) × ℚ)) :
    List.Sorted (keyGE matchupKey) (scoreMatchups ppf conf mg combos) := by
  simp only [scoreMatchups]
  split
  · exact List.sorted_nil
  · split
    · exact List.sorted_nil
    · exact List.sorted_insertionSort (keyGE matchupKey) _

/-- Membership characterization of the scored matchup list. -/
theorem mem_scoreMatchups {ppf : ℚ → ℚ → ℚ → ℚ} {conf : ℚ} {mg : ℤ}
    {combos : List ((List ℤ × List ℤ) × ℚ)} {rg : MatchupRecord × ℚ} :
    rg ∈ scoreMatchups ppf conf mg combos ↔
      orientationStats ((max mg 4 : ℤ) : ℚ) combos ≠ [] ∧
      ¬oTotalGames (orientationStats ((max mg 4 : ℤ) : ℚ) combos) ≤ 0 ∧
      ∃ o ∈ orientationStats ((max mg 4 : ℤ) : ℚ) combos,
        rg = (mkMatchupRecord ppf conf
          (oAlphaPrior (orientationStats ((max mg 4 : ℤ) : ℚ) combos))
          (oBetaPrior (orientationStats ((max mg 4 : ℤ) : ℚ) combos)) o,
          o.2.2) := by
  simp only [scoreMatchups]
  split
  case isTrue h =>
    constructor
    · intro hmem
      exact absurd hmem (List.not_mem_nil rg)
    · rintro ⟨hne, -, -⟩
      exact absurd h hne
  case isFalse h =>
    split
    case isTrue h2 =>
      constructor
      · intro hmem
        exact absurd hmem (List.not_mem_nil rg)
      · rintro ⟨-, hle, -⟩
        exact absurd h2 hle
    case isFalse h2 =>
      rw [List.mem_insertionSort, List.mem_map]
      constructor
      · rintro ⟨o, ho, rfl⟩
        exact ⟨h, h2, o, ho, rfl⟩
      · rintro ⟨-, -, o, ho, rfl⟩
        exact ⟨o, ho, rfl⟩

/-- C5: each partition's record list is sorted descending by
`(win_rate_lcb, games)` — ties on the LCB are broken by larger games —
and records below the caller-supplied `min_games` are dropped; the matchup
lists are the record projections of sorted scored lists all of whose
entries have combined games at least `min_games`.  The embedding is a pure
function, so identical input deterministically yields identical output. -/
theorem ranking_sorted_and_filtered :
    (∀ (ppf : ℚ → ℚ → ℚ → ℚ) (conf : ℚ) (mg : ℤ) (gb : Bool)
        (rows : List TrioRow) (m : ℤ) (rk : Option ℤ)
        (recs : List TrioRecord),
      alookup2 (compute_trio_scores ppf rows gb mg conf) m rk = some recs →
      List.Sorted (keyGE trioKey) recs ∧ ∀ r ∈ recs, mg ≤ r.games) ∧
    (∀ (ppf : ℚ → ℚ → ℚ → ℚ) (conf : ℚ) (mg : ℤ) (rows : List MatchupRow)
        (m : ℤ) (recs : List MatchupRecord),
      alookup m (compute_matchup_scores ppf rows conf mg) = some recs →
      ∃ rgs : List (MatchupRecord × ℚ),
        List.Sorted (keyGE matchupKey) rgs ∧ recs = rgs.map Prod.fst ∧
        ∀ rg ∈ rgs, ((mg : ℤ) : ℚ) ≤ rg.2) := by
  constructor
  · intro ppf conf mg gb rows m rk recs hr
    rw [alookup2_compute_trio] at hr
    cases h : alookup2 (trioStats gb rows) m rk with
    | none => rw [h] at hr; simp at hr
    | some combos =>
        rw [h] at hr
        simp only [Option.map_some'] at hr
        have hrecs : recs = scoreCombos ppf conf mg combos :=
          (Option.some_inj.mp hr).symm
        subst hrecs
        refine ⟨sorted_scoreCombos ppf conf mg combos, ?_⟩
        intro r hrm
        rcases mem_scoreCombos.mp hrm with ⟨-, p, hp, -, h2, rfl⟩
        exact h2
  · intro ppf conf mg rows m recs hr
    rw [alookup_compute_matchup] at hr
    cases h : alookup m (matchupStats rows) with
    | none => rw [h] at hr; simp at hr
    | some combos =>
        rw [h] at hr
        simp only [Option.map_some'] at hr
        refine ⟨scoreMatchups ppf conf mg combos,
          sorted_scoreMatchups ppf conf mg combos,
          (Option.some_inj.mp hr).symm, ?_⟩
        intro rg hrg
        rcases (mem_scoreMatchups.mp hrg) with ⟨-, -, o, ho, rfl⟩
        rcases mem_orientationStats.mp ho with ⟨p, hp, hlt, rfl⟩
        calc ((mg : ℤ) : ℚ) ≤ ((max mg 4 : ℤ) : ℚ) := by
              exact_mod_cast le_max_left mg 4
          _ ≤ _ := not_lt.mp hlt

unseal Rat.add Rat.sub Rat.mul Rat.inv in
theorem ranking_sorted_and_filtered_witness :
    (List.Sorted (keyGE trioKey) recsC2 ∧ ∀ r ∈ recsC2, 0 ≤ r.games) ∧
    (∃ rgs : List (MatchupRecord × ℚ),
      List.Sorted (keyGE matchupKey) rgs ∧
      [mr45, mr45b] = rgs.map Prod.fst ∧
      ∀ rg ∈ rgs, (((0 : ℤ) : ℚ)) ≤ rg.2) :=
  ⟨ranking_sorted_and_filtered.1 ppfC2 (95 / 100) 0 true rowsC2 1 (some 1)
      recsC2 (by decide),
   ranking_sorted_and_filtered.2 ppf0 (95 / 100) 0 rows45 1 [mr45, mr45b]
      (by decide)⟩

unseal Rat.add Rat.sub Rat.mul Rat.inv in
/-- C4: every scored matchup entry's games denominator is its own wins
plus the accumulated wins of the mirror orientation; the retained
orientations are exactly those whose combined games reach
`max(min_games, 4)` (the spec-side filter `specRetained`), selected before
the prior is fitted, so dropped orientations contribute nothing to the
prior (which is computed from the retained orientations only); and in the
concrete 5-observations-vs-1-mirror scenario both orientations are
retained with games `6`. -/
theorem matchup_mirror_merge :
    (∀ (ppf : ℚ → ℚ → ℚ → ℚ) (conf : ℚ) (mg : ℤ)
        (combos : List ((List ℤ × List ℤ) × ℚ)) (rg : MatchupRecord × ℚ),
      rg ∈ scoreMatchups ppf conf mg combos →
      ∃ p ∈ combos,
        rg.2 = p.2 + ((alookup (p.1.2, p.1.1) combos).getD 0) ∧
        ((max mg 4 : ℤ) : ℚ) ≤ rg.2 ∧
        rg.1 = mkMatchupRecord ppf conf
          (oAlphaPrior (orientationStats ((max mg 4 : ℤ) : ℚ) combos))
          (oBetaPrior (orientationStats ((max mg 4 : ℤ) : ℚ) combos))
          (p.1, p.2, rg.2)) ∧
    (∀ (thr : ℚ) (combos : List ((List ℤ × List ℤ) × ℚ)),
      orientationStats thr combos = (specRetained thr combos).map
        (fun p => (p.1, p.2, p.2 + ((alookup (p.1.2, p.1.1) combos).getD 0)))) ∧
    (scoreMatchups ppf0 (95 / 100) 0 combos45).map
        (fun rg => (rg.1.win_brawlers, rg.1.lose_brawlers, rg.2)) =
      [([1, 2, 3], [4, 5, 6], 6), ([4, 5, 6], [1, 2, 3], 6)] := by
  refine ⟨?_, ?_, by decide⟩
  · intro ppf conf mg combos rg hrg
    rcases (mem_scoreMatchups.mp hrg) with ⟨-, -, o, ho, rfl⟩
    rcases mem_orientationStats.mp ho with ⟨p, hp, hlt, rfl⟩
    exact ⟨p, hp, rfl, not_lt.mp hlt, rfl⟩
  · intro thr combos
    have key : ∀ l : List ((List ℤ × List ℤ) × ℚ),
        List.filterMap (fun p =>
          if p.2 + ((alookup (p.1.2, p.1.1) combos).getD 0) < thr then none
          else some (p.1, p.2,
            p.2 + ((alookup (p.1.2, p.1.1) combos).getD 0))) l =
        (List.filter (fun p =>
            decide (thr ≤ p.2 + ((alookup (p.1.2, p.1.1) combos).getD 0))) l).map
          (fun p => (p.1, p.2,
            p.2 + ((alookup (p.1.2, p.1.1) combos).getD 0))) := by
      intro l
      induction l with
      | nil => rfl
      | cons hd tl ih =>
          by_cases hc : hd.2 + ((alookup (hd.1.2, hd.1.1) combos).getD 0) < thr
          · simp [hc, not_le.mpr hc, ih]
          · simp [hc, not_lt.mp hc, ih]
    exact key combos

unseal Rat.add Rat.sub Rat.mul Rat.inv in
theorem matchup_mirror_merge_witness :
    ∃ p ∈ combos45,
      (6 : ℚ) = p.2 + ((alookup (p.1.2, p.1.1) combos45).getD 0) ∧
      ((max 0 4 : ℤ) : ℚ) ≤ (6 : ℚ) ∧
      mr45 = mkMatchupRecord ppf0 (95 / 100)
        (oAlphaPrior (orientationStats ((max 0 4 : ℤ) : ℚ) combos45))
        (oBetaPrior (orientationStats ((max 0 4 : ℤ) : ℚ) combos45))
        (p.1, p.2, (6 : ℚ)) :=
  matchup_mirror_merge.1 ppf0 (95 / 100) 0 combos45 (mr45, 6) (by decide)

/-- Reading a cell after a `setCell` write: the written cell holds the new
value, every other cell is unchanged. -/
theorem cellLookup_setCell (res : List (ℤ × List (ℤ × ℚ))) (x y : ℤ)
    (v : ℚ) (a b : ℤ) :
    cellLookup (setCell res x y v) a b =
      if a = x ∧ b = y then some v else cellLookup res a b := by
  unfold cellLookup setCell
  rw [alookup_updWith]
  by_cases hax : a = x
  · subst hax
    rw [if_pos rfl]
    simp only [Option.some_bind]
    rw [alookup_updWith]
    by_cases hby : b = y
    · subst hby
      simp
    · rw [if_neg hby]
      simp only [hby, and_false, if_false]
      cases h : alookup a res with
      | none => simp [alookup]
      | some inner => simp
  · rw [if_neg hax, if_neg (fun hh : a = x ∧ b = y => hax hh.1)]

/-- A fold of paired symmetric `setCell` writes keeps the table
symmetric. -/
theorem foldl_setCell_symm (g : ((ℤ × ℤ) × Tally) → ℚ) :
    ∀ (l : List ((ℤ × ℤ) × Tally)) (acc : List (ℤ × List (ℤ × ℚ))),
      (∀ x y, cellLookup acc x y = cellLookup acc y x) →
      ∀ a b,
        cellLookup (List.foldl (fun acc p =>
          setCell (setCell acc p.1.1 p.1.2 (g p)) p.1.2 p.1.1 (g p)) acc l) a b =
        cellLookup (List.foldl (fun acc p =>
          setCell (setCell acc p.1.1 p.1.2 (g p)) p.1.2 p.1.1 (g p)) acc l) b a := by
  intro l
  induction l with
  | nil => intro acc hacc a b; exact hacc a b
  | cons hd tl ih =>
      intro acc hacc a b
      simp only [List.foldl_cons]
      apply ih
      intro x y
      rw [cellLookup_setCell, cellLookup_setCell, cellLookup_setCell,
        cellLookup_setCell]
      by_cases h1 : x = hd.1.2 ∧ y = hd.1.1
      · rw [if_pos h1]
        by_cases h2 : y = hd.1.2 ∧ x = hd.1.1
        · rw [if_pos h2]
        · rw [if_neg h2, if_pos ⟨h1.2, h1.1⟩]
      · rw [if_neg h1]
        by_cases h2 : x = hd.1.1 ∧ y = hd.1.2
        · rw [if_pos h2, if_pos ⟨h2.2, h2.1⟩]
        · rw [if_neg h2, if_neg (fun hh => h2 ⟨hh.2, hh.1⟩),
            if_neg (fun hh => h1 ⟨hh.2, hh.1⟩)]
          exact hacc x y

/-- C6: with `symmetrical=True` (the synergy aggregation) every per-map
result table of `compute_pair_rates` is exactly symmetric:
`result[A][B] = result[B][A]` for all `A`, `B` — both cells missing or
both holding the same rational. -/
theorem synergy_symmetry (lcbFn : ℚ → ℚ → ℚ) (rows : List PairRow)
    (m : ℤ) (res : List (ℤ × List (ℤ × ℚ))) (a b : ℤ)
    (hres : alookup m (compute_pair_rates lcbFn rows true) = some res) :
    cellLookup res a b = cellLookup res b a := by
  rw [alookup_compute_pair] at hres
  cases h : alookup m (pairStats rows) with
  | none => rw [h] at hres; simp at hres
  | some pairs =>
      rw [h] at hres
      simp only [Option.map_some'] at hres
      have hres2 : res = computePairMap lcbFn true pairs :=
        (Option.some_inj.mp hres).symm
      subst hres2
      simp only [computePairMap]
      split
      · rfl
      · exact foldl_setCell_symm
          (fun p => lcbFn (specAlphaPrior pairs + p.2.wins)
            (specBetaPrior pairs + p.2.games - p.2.wins))
          pairs [] (fun x y => rfl) a b

unseal Rat.add Rat.sub Rat.mul Rat.inv in
theorem synergy_symmetry_witness :
    cellLookup [(1, [(2, 0)]), (2, [(1, 0)])] 1 2 =
      cellLookup [(1, [(2, 0)]), (2, [(1, 0)])] 2 1 :=
  synergy_symmetry lcb0 pairRowsW 1 [(1, [(2, 0)]), (2, [(1, 0)])] 1 2
    (by decide)

unseal Rat.add Rat.sub Rat.mul Rat.inv in
/-- C2 counterexample: the chain `win_rate_lcb ≤ win_rate` is false.  On
`rowsC2` the all-loss trio `[4,5,6]` has raw `win_rate = 0`, but its
posterior is Beta(1, 3), whose `0.05`-quantile is `≈ 0.01695 > 0`; any
quantile routine within `1/100` of the true posterior mass on this run's
calls (scipy comfortably is) therefore produces
`win_rate_lcb > win_rate`. -/
theorem shrinkage_boundedness_counterexample : ¬shrinkageBoundednessClaim := by
  intro h
  have hcalls : trioPPFCalls true (95 / 100) rowsC2 =
      [(1 / 20, 3, 1), (1 / 20, 1, 3)] := by decide
  have happrox : ∀ c ∈ trioPPFCalls true (95 / 100) rowsC2,
      ApproxBetaPPFAt c.1 c.2.1 c.2.2 (ppfC2 c.1 c.2.1 c.2.2) := by
    rw [hcalls]
    intro c hc
    simp only [List.mem_cons, List.not_mem_nil, or_false] at hc
    rcases hc with rfl | rfl
    · refine ⟨by decide, by decide, ?_⟩
      intro m n hm hn ha hb
      have ha0 : (3 : ℚ) = (m : ℚ) := ha
      have hb0 : (1 : ℚ) = (n : ℚ) := hb
      have hm3 : m = 3 := by exact_mod_cast ha0.symm
      have hn1 : n = 1 := by exact_mod_cast hb0.symm
      subst hm3
      subst hn1
      decide
    · refine ⟨by decide, by decide, ?_⟩
      intro m n hm hn ha hb
      have ha0 : (1 : ℚ) = (m : ℚ) := ha
      have hb0 : (3 : ℚ) = (n : ℚ) := hb
      have hm1 : m = 1 := by exact_mod_cast ha0.symm
      have hn3 : n = 3 := by exact_mod_cast hb0.symm
      subst hm1
      subst hn3
      decide
  have hbad := h ppfC2 rowsC2 0 1 (some 1) recsC2 recC2 (by decide) happrox
    (by decide) (by decide)
  exact absurd hbad.2.1 (by decide)

/-- C2 (amended): every record of `compute_trio_scores` over rows with
nonnegative wins and losses satisfies `0 ≤ win_rate ≤ 1`, and — provided
the quantile routine returns values in `[0, 1]`, as the Beta quantile
does — `0 ≤ win_rate_lcb ≤ 1`.  The bound `win_rate_lcb ≤ win_rate`
(and with it the monotone convergence from below) does not hold: the
shrinkage prior can pull the LCB of a below-average group above its raw
rate, as the counterexample shows. -/
theorem trio_record_bounds (ppf : ℚ → ℚ → ℚ → ℚ) (conf : ℚ) (mg : ℤ)
    (gb : Bool) (rows : List TrioRow) (m : ℤ) (rk : Option ℤ)
    (recs : List TrioRecord) (r : TrioRecord)
    (hval : TrioRowsValid rows)
    (hppf : ∀ q a b, 0 ≤ ppf q a b ∧ ppf q a b ≤ 1)
    (hr : alookup2 (compute_trio_scores ppf rows gb mg conf) m rk = some recs)
    (hmem : r ∈ recs) :
    0 ≤ r.win_rate ∧ r.win_rate ≤ 1 ∧
    0 ≤ r.win_rate_lcb ∧ r.win_rate_lcb ≤ 1 := by
  rw [alookup2_compute_trio] at hr
  cases hc : alookup2 (trioStats gb rows) m rk with
  | none => rw [hc] at hr; simp at hr
  | some combos =>
      rw [hc] at hr
      simp only [Option.map_some'] at hr
      have hrecs : recs = scoreCombos ppf conf mg combos :=
        (Option.some_inj.mp hr).symm
      subst hrecs
      rcases mem_scoreCombos.mp hmem with ⟨-, p, hp, h1, -, rfl⟩
      have hok : TallyOK p.2 := by
        have hstats := trioStats_ok gb hval
        unfold alookup2 at hc
        cases h0 : alookup m (trioStats gb rows) with
        | none => rw [h0] at hc; simp at hc
        | some ranks =>
            rw [h0] at hc
            simp only [Option.some_bind] at hc
            exact hstats (m, ranks) (alookup_mem h0) (rk, combos)
              (alookup_mem hc) p hp
      have hgpos : 0 < p.2.games := not_le.mp h1
      refine ⟨?_, ?_, (hppf _ _ _).1, (hppf _ _ _).2⟩
      · show 0 ≤ (if 0 < p.2.games then p.2.wins / p.2.games else 0)
        rw [if_pos hgpos]
        exact div_nonneg hok.1 (le_of_lt hgpos)
      · show (if 0 < p.2.games then p.2.wins / p.2.games else 0) ≤ 1
        rw [if_pos hgpos]
        exact (div_le_one hgpos).mpr hok.2

unseal Rat.add Rat.sub Rat.mul Rat.inv in
theorem trio_record_bounds_witness :
    0 ≤ (⟨[4, 5, 6], 0, 2, 2, 0, 0⟩ : TrioRecord).win_rate ∧
    (⟨[4, 5, 6], 0, 2, 2, 0, 0⟩ : TrioRecord).win_rate ≤ 1 ∧
    0 ≤ (⟨[4, 5, 6], 0, 2, 2, 0, 0⟩ : TrioRecord).win_rate_lcb ∧
    (⟨[4, 5, 6], 0, 2, 2, 0, 0⟩ : TrioRecord).win_rate_lcb ≤ 1 :=
  trio_record_bounds ppf0 (95 / 100) 0 true rowsC2 1 (some 1)
    [⟨[1, 2, 3], 2, 0, 2, 1, 0⟩, ⟨[4, 5, 6], 0, 2, 2, 0, 0⟩]
    ⟨[4, 5, 6], 0, 2, 2, 0, 0⟩ (by decide)
    (fun q a b => ⟨le_refl 0, by norm_num [ppf0]⟩) (by decide) (by decide)

/-- C8 (amended): each record exported by the trio pipeline carries a
`games` key holding the rounded integer sample count of its group, a
`win_rate_lcb` key, and the `brawlers` identifiers; each full-3v3 record
carries `win_rate_lcb` and the two trio identifier lists but — unlike the
claim — no `games` key at all (games is only used internally as the sort
tiebreaker). -/
theorem exported_record_fields :
    (∀ (ppf : ℚ → ℚ → ℚ → ℚ) (conf : ℚ) (mg : ℤ) (gb : Bool)
        (rows : List TrioRow) (m : ℤ) (fl : List (List (String × JVal)))
        (fields : List (String × JVal)),
      alookup m (export_trio_json (compute_trio_scores ppf rows gb mg conf)) =
        some fl →
      fields ∈ fl →
      ∃ (recs : List TrioRecord) (r : TrioRecord)
        (combos : List (List ℤ × Tally)) (p : List ℤ × Tally),
        alookup2 (compute_trio_scores ppf rows gb mg conf) m none =
          some recs ∧
        r ∈ recs ∧ fields = exportedTrioFields r ∧
        ("games", JVal.jint r.games) ∈ fields ∧
        ("win_rate_lcb", JVal.jrat r.win_rate_lcb) ∈ fields ∧
        ("brawlers", JVal.jintList r.brawlers) ∈ fields ∧
        alookup2 (trioStats gb rows) m none = some combos ∧ p ∈ combos ∧
        r.games = pyRound p.2.games ∧ r.brawlers = p.1) ∧
    (∀ (ppf : ℚ → ℚ → ℚ → ℚ) (conf : ℚ) (mg : ℤ) (rows : List MatchupRow)
        (m : ℤ) (recs : List MatchupRecord) (r : MatchupRecord),
      alookup m (compute_matchup_scores ppf rows conf mg) = some recs →
      r ∈ recs →
      ("win_rate_lcb", JVal.jrat r.win_rate_lcb) ∈ matchupRecordFields r ∧
      ("win_brawlers", JVal.jintList r.win_brawlers) ∈ matchupRecordFields r ∧
      ("lose_brawlers", JVal.jintList r.lose_brawlers) ∈
        matchupRecordFields r ∧
      ∀ v, ("games", v) ∉ matchupRecordFields r) := by
  constructor
  · intro ppf conf mg gb rows m fl fields hf hfields
    unfold export_trio_json at hf
    rw [alookup_mapVals
      (fun _ ranks => ((alookup none ranks).getD []).map exportedTrioFields)
      m (compute_trio_scores ppf rows gb mg conf)] at hf
    cases h0 : alookup m (compute_trio_scores ppf rows gb mg conf) with
    | none => rw [h0] at hf; simp at hf
    | some ranks =>
        rw [h0] at hf
        simp only [Option.map_some'] at hf
        have hfl : fl = ((alookup none ranks).getD []).map exportedTrioFields :=
          (Option.some_inj.mp hf).symm
        subst hfl
        rcases List.mem_map.mp hfields with ⟨r, hr, rfl⟩
        cases h1 : alookup none ranks with
        | none => rw [h1] at hr; simp at hr
        | some recs =>
            rw [h1, Option.getD_some] at hr
            have hrecs : alookup2
                (compute_trio_scores ppf rows gb mg conf) m none = some recs := by
              unfold alookup2
              rw [h0]
              simpa using h1
            have h2 := alookup2_compute_trio ppf conf mg gb rows m none
            rw [hrecs] at h2
            cases h3 : alookup2 (trioStats gb rows) m none with
            | none => rw [h3] at h2; simp at h2
            | some combos =>
                rw [h3] at h2
                simp only [Option.map_some'] at h2
                have hsc : recs = scoreCombos ppf conf mg combos :=
                  Option.some_inj.mp h2
                rcases mem_scoreCombos.mp (hsc ▸ hr) with
                  ⟨-, p, hp, -, -, hrdef⟩
                refine ⟨recs, r, combos, p, hrecs, hr, rfl, ?_, ?_, ?_, ?_,
                  ?_, ?_, ?_⟩
                · simp [exportedTrioFields]
                · simp [exportedTrioFields]
                · simp [exportedTrioFields]
                · exact rfl
                · exact hp
                · simp [hrdef, mkTrioRecord]
                · simp [hrdef, mkTrioRecord]
  · intro ppf conf mg rows m recs r hrec hmem
    refine ⟨?_, ?_, ?_, ?_⟩
    · simp [matchupRecordFields]
    · simp [matchupRecordFields]
    · simp [matchupRecordFields]
    · intro v hv
      simp [matchupRecordFields] at hv

unseal Rat.add Rat.sub Rat.mul Rat.inv in
/-- C8 counterexample: the record the full-3v3 aggregation produces for
the winning orientation of `rows45` is in the published output and its
key set has no `games` key. -/
theorem full3v3_record_missing_games :
    (∃ recs, alookup 1 (compute_matchup_scores ppf0 rows45 (95 / 100) 0) =
      some recs ∧ mr45 ∈ recs) ∧
    ∀ v, ("games", v) ∉ matchupRecordFields mr45 := by
  constructor
  · exact ⟨[mr45, mr45b], by decide, by decide⟩
  · intro v hv
    simp [matchupRecordFields] at hv

unseal Rat.add Rat.sub Rat.mul Rat.inv in
theorem exported_record_fields_witness :
    ∃ (recs : List TrioRecord) (r : TrioRecord)
      (combos : List (List ℤ × Tally)) (p : List ℤ × Tally),
      alookup2 (compute_trio_scores ppfC2 rowsC2 false 0 (95 / 100)) 1 none =
        some recs ∧
      r ∈ recs ∧ exportedTrioFields recC2 = exportedTrioFields r ∧
      ("games", JVal.jint r.games) ∈ exportedTrioFields recC2 ∧
      ("win_rate_lcb", JVal.jrat r.win_rate_lcb) ∈ exportedTrioFields recC2 ∧
      ("brawlers", JVal.jintList r.brawlers) ∈ exportedTrioFields recC2 ∧
      alookup2 (trioStats false rowsC2) 1 none = some combos ∧ p ∈ combos ∧
      r.games = pyRound p.2.games ∧ r.brawlers = p.1 :=
  exported_record_fields.1 ppfC2 (95 / 100) 0 false rowsC2 1
    [exportedTrioFields ⟨[1, 2, 3], 2, 0, 2, 1, 46 / 125⟩,
      exportedTrioFields recC2]
    (exportedTrioFields recC2) (by decide) (by decide)

end BrawlStats
